import Mathlib

/-!
Verification development for the pynapple core utilities
(`pynapple/core/utils.py`): the interval-set normalizer `_jitfix_iset`
and the array-function dispatch wrappers `_concatenate_tsd` /
`_split_tsd` / `_check_time_equals`.

Timestamps and interval boundaries are modelled as rationals (`ℚ`),
standing for the real-valued float time stamps of the source; all
comparisons in the source are exact comparisons, which `ℚ` models
faithfully.  The normalizer's input columns `start`/`end` are zipped
into a list of `(start, end)` pairs; the cursor `i` of the source is
the position in that list, and the pre-allocated output buffer with
its fill count `ct` is modelled as the emitted output list.
-/

set_option maxRecDepth 4000

namespace Pynapple

/-- The four anomaly flags of `_jitfix_iset` (`to_warn` in the source):
`w0` = "Some starts and ends are equal. Removing 1 microsecond!",
`w1` = "Some ends precede the relative start. Dropping them!",
`w2` = "Some starts precede the previous end. Joining them!",
`w3` = "Some epochs have no duration". -/
structure Warn where
  w0 : Bool
  w1 : Bool
  w2 : Bool
  w3 : Bool
deriving DecidableEq, Repr

/-- The zero-duration skip loop of `_jitfix_iset`:
`while i < m: if end[i] == start[i]: to_warn[3] = True; i += 1 else: break`.
Returns the remaining pairs and the updated flag `to_warn[3]`. -/
def dropZero : List (ℚ × ℚ) → Bool → List (ℚ × ℚ) × Bool
  | [], w => ([], w)
  | (s0, e0) :: t, w => if e0 = s0 then dropZero t true else ((s0, e0) :: t, w)

/-- The inverted-interval skip loop of `_jitfix_iset`:
`while i < m: if end[i] < start[i]: to_warn[1] = True; i += 1 else: break`.
Returns the remaining pairs and the updated flag `to_warn[1]`. -/
def dropInv : List (ℚ × ℚ) → Bool → List (ℚ × ℚ) × Bool
  | [], w => ([], w)
  | (s0, e0) :: t, w => if e0 < s0 then dropInv t true else ((s0, e0) :: t, w)

/-- The overlap-merge loop of `_jitfix_iset`:
`while i < m - 1: if start[i+1] < end[i]: to_warn[2] = True; i += 1;
newend = max(end[i-1], end[i]) else: break`.
`ecur` is the raw `end[i]` at the current cursor, `newend` the tracked
merged end.  Returns the final `newend`, the pairs from the final
cursor position onwards excluded ... i.e. the remaining lookahead list
`start[i+1..]`, and the updated flag `to_warn[2]`. -/
def mergeRun (ecur newend : ℚ) : List (ℚ × ℚ) → Bool → ℚ × (List (ℚ × ℚ) × Bool)
  | [], w => (newend, ([], w))
  | (s1, e1) :: t, w =>
      if s1 < ecur then mergeRun e1 (max ecur e1) t true
      else (newend, ((s1, e1) :: t, w))

/-- The boundary-shrink step of `_jitfix_iset`:
`if i < m - 1: if newend == start[i+1]: to_warn[0] = True; newend -= 1.0e-6`.
`rest` is the list of pairs after the current cursor position. -/
def shrinkStep (ne : ℚ) (rest : List (ℚ × ℚ)) (w0 : Bool) : ℚ × Bool :=
  match rest with
  | (s1, _) :: _ => if ne = s1 then (ne - 1/1000000, true) else (ne, w0)
  | [] => (ne, w0)

/-- The outer `while i < m` loop of `_jitfix_iset`, structurally
recursive on a fuel argument.  Each iteration consumes at least one
input pair, so fuel equal to the input length never runs out. -/
def fixAux : ℕ → List (ℚ × ℚ) → Warn → List (ℚ × ℚ) × Warn
  | 0, _, w => ([], w)
  | fuel + 1, l, w =>
    let p1 := dropZero l w.w3
    let p2 := dropInv p1.1 w.w1
    match p2.1 with
    | [] => ([], ⟨w.w0, p2.2, w.w2, p1.2⟩)
    | (s0, e0) :: t =>
      let p3 := mergeRun e0 e0 t w.w2
      let p4 := shrinkStep p3.1 p3.2.1 w.w0
      let p5 := fixAux fuel p3.2.1 ⟨p4.2, p2.2, p3.2.2, p1.2⟩
      ((s0, p4.1) :: p5.1, p5.2)

/-- The function `_jitfix_iset(start, end)` from `pynapple/core/utils.py`: repairs a
raw start/end column pair into an interval list, reporting the four
anomaly flags.  `m = start.shape[0]` is the fuel; the columns are
zipped into pairs. -/
def _jitfix_iset (start end' : List ℚ) : List (ℚ × ℚ) × Warn :=
  fixAux start.length (start.zip end') ⟨false, false, false, false⟩

/-! ## The dispatch layer: `_check_time_equals`, `_concatenate_tsd`, `_split_tsd`

Value arrays are modelled by an arbitrary type `Arr` together with the
engine's concatenation `impl : List Arr → Arr` (standing for
`func._implementation(arrays, **kwargs)` with the axis keyword already
bound) and the leading-axis length `lenOf : Arr → ℕ` (standing for
`.shape[0]`).  A time index is a `List ℚ`; an interval set is its
`.values` view, a `List (ℚ × ℚ)` of (start, end) rows; `union` — the
`IntervalSet.union` method, whose implementation lives outside this
source file — is passed in as a parameter.  Column labels have an
arbitrary type `C`.
-/

/-- The three warning messages of the mismatch fallback in
`_concatenate_tsd`: "Time indexes and time supports are not all equals
up to pynapple precision. Returning numpy array!", "Time indexes are
not ...", "Time supports are not ...". -/
inductive MsgKind where
  | bothNotEqual
  | indexNotEqual
  | supportNotEqual
deriving DecidableEq, Repr

variable {Arr C : Type}

/-- A time-bearing operand: exposes `values`, `index`, `time_support`
(as its `(start, end)` rows) and, optionally, `columns`.  The
`nap_class` type tag is the constructor of this structure itself. -/
structure TsdArg (Arr C : Type) where
  values : Arr
  index : List ℚ
  time_support : List (ℚ × ℚ)
  cols : Option C
deriving DecidableEq, Repr

/-- An operand of a concatenation call: either a plain array or a
time-bearing container exposing all four attributes
`values`, `index`, `time_support`, `nap_class` (an operand with only
some of them is appended to `arrays` as-is, i.e. is plain here). -/
inductive NpArg (Arr C : Type) where
  | plain (a : Arr)
  | tsd (x : TsdArg Arr C)
deriving DecidableEq, Repr

/-- The array contributed to the numeric operation: `arg.values` for a
time-bearing operand, the operand itself otherwise. -/
def NpArg.toArr : NpArg Arr C → Arr
  | .plain a => a
  | .tsd x => x.values

/-- The time index collected from a time-bearing operand. -/
def NpArg.index? : NpArg Arr C → Option (List ℚ)
  | .plain _ => none
  | .tsd x => some x.index

/-- The time support collected from a time-bearing operand. -/
def NpArg.support? : NpArg Arr C → Option (List (ℚ × ℚ))
  | .plain _ => none
  | .tsd x => some x.time_support

/-- The column labels collected from a time-bearing operand that has
them (`if hasattr(arg, "columns")`). -/
def NpArg.cols? : NpArg Arr C → Option C
  | .plain _ => none
  | .tsd x => x.cols

/-- Whether the operand exposes all four time-metadata attributes. -/
def NpArg.isTsd : NpArg Arr C → Bool
  | .plain _ => false
  | .tsd _ => true

/-- The result of a dispatched concatenation call:
`raw` — the numeric output returned unchanged;
`container` — `nap_class(t=..., d=..., time_support=..., [columns=...])`;
`orderError` — the `RuntimeError` "The order of the time series indexes
should be strictly increasing and non overlapping.";
`warnRaw` — the numeric output together with one of the three warning
messages; `pyError` — an uncaught Python-level exception (e.g. the
`IndexError` from `time_indexes[0]` on an empty list). -/
inductive NpResult (Arr C : Type) where
  | raw (a : Arr)
  | container (t : List ℚ) (d : Arr) (support : List (ℚ × ℚ)) (cols : Option C)
  | orderError
  | warnRaw (msg : MsgKind) (a : Arr)
  | pyError
deriving DecidableEq, Repr

/-- Elementwise closeness of two same-shape one-dimensional arrays:
every elementwise difference is at most `atol` (the `rtol = 0` case of
`np.isclose` followed by `np.all`).  Only called on equal-length lists
(the broadcast wrapper `allclose1` arranges that); the leftover
pattern is unreachable there. -/
def rowsClose (atol : ℚ) : List ℚ → List ℚ → Bool
  | a :: as, b :: bs => if |a - b| ≤ atol then rowsClose atol as bs else false
  | _, _ => true

/-- Elementwise closeness of two same-shape `(n, 2)` arrays, row by
row.  Only called on equal-length row lists (the broadcast wrapper
`allclose2` arranges that); the leftover pattern is unreachable
there. -/
def rowsClose2 (atol : ℚ) : List (ℚ × ℚ) → List (ℚ × ℚ) → Bool
  | p :: ps, q :: qs =>
    if |p.1 - q.1| ≤ atol ∧ |p.2 - q.2| ≤ atol then rowsClose2 atol ps qs
    else false
  | _, _ => true

/-- Semantics of `np.allclose(a, b, rtol=0, atol)` on one-dimensional
arrays, numpy broadcasting included: equal lengths compare
elementwise; a length-1 operand is broadcast against the other;
otherwise the shapes are incompatible and numpy raises a
`ValueError`, modelled as `none`. -/
def allclose1 (atol : ℚ) (a b : List ℚ) : Option Bool :=
  if a.length = b.length then some (rowsClose atol a b)
  else if a.length = 1 then
    some (rowsClose atol (List.replicate b.length (a.headD 0)) b)
  else if b.length = 1 then
    some (rowsClose atol a (List.replicate a.length (b.headD 0)))
  else none

/-- Semantics of `np.allclose(a, b, rtol=0, atol)` on `(n, 2)` arrays
(the `.values` views of interval sets), numpy broadcasting included:
equal row counts compare row by row; a single-row operand is broadcast
against the other; otherwise the shapes are incompatible and numpy
raises a `ValueError`, modelled as `none`. -/
def allclose2 (atol : ℚ) (a b : List (ℚ × ℚ)) : Option Bool :=
  if a.length = b.length then some (rowsClose2 atol a b)
  else if a.length = 1 then
    some (rowsClose2 atol (List.replicate b.length (a.headD (0, 0))) b)
  else if b.length = 1 then
    some (rowsClose2 atol a (List.replicate a.length (b.headD (0, 0))))
  else none

/-- One row of the combinations check: `np.allclose(a, b)` against
each later array, in order.  Python's `all(...)` over a generator
short-circuits on the first `False`, and an exception raised by a
later comparison propagates (`none`) only if no earlier pair already
returned `False`. -/
def npAllRow {α : Type} (cl : α → α → Option Bool) (a : α) :
    List α → Option Bool
  | [] => some true
  | b :: t =>
    match cl a b with
    | none => none
    | some false => some false
    | some true => npAllRow cl a t

/-- The function `_check_time_equals(time_arrays)` from
`pynapple/core/utils.py`: `all(map(lambda x: np.allclose(*x, rtol=0,
atol=1/10**precision), combinations(time_arrays, 2)))`, evaluated
lazily in combination order.  The comparison `cl` is `np.allclose` at
the relevant array shape (`allclose1` for one-dimensional time
indexes, `allclose2` for `(n, 2)` interval-set values); `none` models
a `ValueError` escaping from `np.allclose` on broadcast-incompatible
shapes. -/
def _check_time_equals {α : Type} (cl : α → α → Option Bool) :
    List α → Option Bool
  | [] => some true
  | a :: t =>
    match npAllRow cl a t with
    | none => none
    | some false => some false
    | some true => _check_time_equals cl t

/-- The tolerance `atol = 1 / 10**nap_config.time_index_precision` for configured
precision `P`. -/
def atolOf (P : ℕ) : ℚ := 1 / 10 ^ P

/-- Semantics of `np.any(np.diff(new_index) <= 0)`: some adjacent pair of the index
is non-increasing. -/
def hasNonIncr : List ℚ → Bool
  | a :: b :: t => decide (b ≤ a) || hasNonIncr (b :: t)
  | _ => false

/-- The loop `time_support = time_supports[0]; for support in time_supports[1:]:
time_support = time_support.union(support)` — the left fold of the
union method over the collected supports.  (In the branch where the
source runs this, the list is nonempty; the `[]` case is unreachable.) -/
def foldUnion (union : List (ℚ × ℚ) → List (ℚ × ℚ) → List (ℚ × ℚ)) :
    List (List (ℚ × ℚ)) → List (ℚ × ℚ)
  | [] => []
  | s :: t => t.foldl union s

/-- The branch of `_concatenate_tsd` for output grown along the first
axis with complete metadata: join the indexes with `np.hstack`, raise
on a non-increasing adjacent pair, otherwise rebuild a container with
the unioned support and the first collected columns. -/
def concatGrowth (union : List (ℚ × ℚ) → List (ℚ × ℚ) → List (ℚ × ℚ))
    (time_indexes : List (List ℚ)) (time_supports : List (List (ℚ × ℚ)))
    (columns : List C) (output : Arr) : NpResult Arr C :=
  let new_index := time_indexes.flatten
  if hasNonIncr new_index then .orderError
  else .container new_index output (foldUnion union time_supports) columns.head?

/-- The branch of `_concatenate_tsd` for output not grown along the
first axis ("dimension increased in other axis"): reuse a single
collected index directly, otherwise keep a container only when the
indexes and the supports are all pairwise close, else warn and return
the plain output.  `time_indexes[0]` on an empty collection is the
source's `IndexError` (`pyError`), and a `none` from either
`_check_time_equals` call is a `ValueError` escaping the whole call
(`pyError`) — `time_equal` is computed before `support_equal`, as in
the source. -/
def concatSame (P : ℕ) (time_indexes : List (List ℚ))
    (time_supports : List (List (ℚ × ℚ))) (output : Arr) : NpResult Arr C :=
  match time_indexes, time_supports with
  | [], _ => .pyError
  | _ :: _, [] => .pyError
  | [t0], s0 :: _ => .container t0 output s0 none
  | t0 :: _ :: _, s0 :: _ =>
    match _check_time_equals (allclose1 (atolOf P)) time_indexes with
    | none => .pyError
    | some time_equal =>
      match _check_time_equals (allclose2 (atolOf P)) time_supports with
      | none => .pyError
      | some support_equal =>
        if time_equal && support_equal then .container t0 output s0 none
        else if !time_equal && !support_equal then .warnRaw .bothNotEqual output
        else if !time_equal && support_equal then .warnRaw .indexNotEqual output
        else .warnRaw .supportNotEqual output

/-- The function `_concatenate_tsd(func, *args, **kwargs)` from
`pynapple/core/utils.py`, with the numeric engine call
`func._implementation(arrays, **kwargs)` abstracted as `impl` and
`.shape[0]` as `lenOf`.  The operands `args[0]` are partitioned into
collected metadata and the `arrays` list, the numeric output is
computed, and the result is rebuilt according to whether the first
axis grew and the metadata is complete. -/
def _concatenate_tsd (impl : List Arr → Arr) (lenOf : Arr → ℕ)
    (union : List (ℚ × ℚ) → List (ℚ × ℚ) → List (ℚ × ℚ)) (P : ℕ)
    (args : List (NpArg Arr C)) : NpResult Arr C :=
  let arrays := args.map NpArg.toArr
  let time_indexes := args.filterMap NpArg.index?
  let time_supports := args.filterMap NpArg.support?
  let columns := args.filterMap NpArg.cols?
  match arrays with
  | [] => .pyError
  | a0 :: _ =>
    let output := impl arrays
    if lenOf output > lenOf a0 then
      if time_indexes.length = arrays.length ∧ time_supports.length = arrays.length
      then concatGrowth union time_indexes time_supports columns output
      else .raw output
    else concatSame P time_indexes time_supports output

/-! ## The split wrapper and the externally-owned container pieces

`_split_tsd` rebuilds the pieces with `tsd.__class__(t=t, d=d, **kwargs)`;
that constructor, like `IntervalSet.union`, is owned by the container
types outside this source file, so both are modelled from the spec. -/

/-- Modelled from the spec: the default time support assigned by the
container constructor `tsd.__class__(t=..., d=...)` (the constructor
itself is not part of this source file).  Per the data model, the time
support is "an IntervalSet describing the validity domain of the
index": the single interval from the first to the last time stamp,
empty for an empty index. -/
def defaultSupport (t : List ℚ) : List (ℚ × ℚ) :=
  match t with
  | [] => []
  | x :: xs => [(x, xs.getLastD x)]

/-- The constructor call `tsd.__class__(t=t, d=d, **kwargs)`: a fresh container with the
given index, values and columns, carrying the modelled default
support. -/
def mkTsd (t : List ℚ) (d : Arr) (cols : Option C) : TsdArg Arr C :=
  { values := d, index := t, time_support := defaultSupport t, cols := cols }

/-- Semantics of `np.split(arr, n)` along axis 0 for `n` equal sections: the `i`-th
piece is the slice of length `len / n` starting at `i * (len / n)`
(numpy raises unless `n` divides the length; the claims only use the
divisible case). -/
def npSplit {α : Type} (n : ℕ) (l : List α) : List (List α) :=
  (List.range n).map fun i => (l.drop (i * (l.length / n))).take (l.length / n)

/-- The function `_split_tsd(func, tsd, indices_or_sections, axis=0)` from
`pynapple/core/utils.py`, in its `func in [np.split, np.array_split,
np.vsplit] and axis == 0` branch for `n` equal sections: split the
values and the index at the same cut points and rebuild one container
per piece, passing the original columns through. -/
def _split_tsd {V : Type} (tsd : TsdArg (List V) C) (n : ℕ) :
    List (TsdArg (List V) C) :=
  ((npSplit n tsd.index).zip (npSplit n tsd.values)).map fun p =>
    mkTsd p.1 p.2 tsd.cols

/-- Insertion of an interval into a list sorted by start (stable). -/
def insertByStart (p : ℚ × ℚ) : List (ℚ × ℚ) → List (ℚ × ℚ)
  | [] => [p]
  | q :: t => if p.1 ≤ q.1 then p :: q :: t else q :: insertByStart p t

/-- Sort an interval list by start. -/
def sortByStart (l : List (ℚ × ℚ)) : List (ℚ × ℚ) := l.foldr insertByStart []

/-- Modelled from the spec: `IntervalSet.union` (not part of this
source file) — pool the intervals of both operands, sort them by
start, and normalize with the interval normalizer (the spec's "relies
on IntervalNormalizer semantics for the merge"). -/
def isetUnion (a b : List (ℚ × ℚ)) : List (ℚ × ℚ) :=
  (fixAux (a ++ b).length (sortByStart (a ++ b)) ⟨false, false, false, false⟩).1

/-! ## Concrete engine instances used by witnesses and counterexamples -/

/-- Semantics of `np.concatenate` along axis 0 on row lists. -/
def catAxis0 {V : Type} (ls : List (List V)) : List V := ls.flatten

/-- Semantics of `np.concatenate` along axis 1 on two equal-height two-dimensional
arrays given as row lists. -/
def catAxis1 (ls : List (List (List ℚ))) : List (List ℚ) :=
  match ls with
  | [x, y] => x.zipWith (· ++ ·) y
  | _ => []

/-- A one-dimensional time-bearing operand over `[0, 1]`. -/
def tsdRowsA : NpArg (List ℚ) ℕ := .tsd ⟨[10, 20], [0, 1], [(0, 1)], none⟩

/-- A one-dimensional time-bearing operand over `[2, 3]`. -/
def tsdRowsB : NpArg (List ℚ) ℕ := .tsd ⟨[30, 40], [2, 3], [(2, 3)], none⟩

/-- A plain one-dimensional operand. -/
def plainRows : NpArg (List ℚ) ℕ := .plain [30, 40]

/-- A one-column time-bearing operand over `[0, 1]`. -/
def tsdColA : NpArg (List (List ℚ)) ℕ := .tsd ⟨[[1], [2]], [0, 1], [(0, 1)], none⟩

/-- Another one-column time-bearing operand over the same index. -/
def tsdColB : NpArg (List (List ℚ)) ℕ := .tsd ⟨[[5], [6]], [0, 1], [(0, 1)], none⟩

/-- A plain one-column operand. -/
def plainCol : NpArg (List (List ℚ)) ℕ := .plain [[5], [6]]

/-- A one-column time-bearing operand whose support has two
intervals. -/
def tsdColS2 : NpArg (List (List ℚ)) ℕ :=
  .tsd ⟨[[1], [2]], [0, 1], [(0, 1), (2, 3)], none⟩

/-- A one-column time-bearing operand with the same index but a
three-interval support — broadcast-incompatible with a two-interval
one. -/
def tsdColS3 : NpArg (List (List ℚ)) ℕ :=
  .tsd ⟨[[5], [6]], [0, 1], [(0, 1), (2, 3), (4, 5)], none⟩

/-! ## Structural lemmas about the normalizer loops -/

/-- The zero-duration skip only discards leading pairs. -/
theorem dropZero_fst_sublist (l : List (ℚ × ℚ)) (w : Bool) :
    (dropZero l w).1.Sublist l := by
  induction l generalizing w with
  | nil => simp [dropZero]
  | cons p t ih =>
    obtain ⟨s0, e0⟩ := p
    by_cases h : e0 = s0
    · simpa [dropZero, h] using (ih true).trans (List.sublist_cons_self _ _)
    · simp [dropZero, h]

/-- The inverted-interval skip only discards leading pairs. -/
theorem dropInv_fst_sublist (l : List (ℚ × ℚ)) (w : Bool) :
    (dropInv l w).1.Sublist l := by
  induction l generalizing w with
  | nil => simp [dropInv]
  | cons p t ih =>
    obtain ⟨s0, e0⟩ := p
    by_cases h : e0 < s0
    · simpa [dropInv, h] using (ih true).trans (List.sublist_cons_self _ _)
    · simp [dropInv, h]

/-- The merge loop only consumes leading pairs of its lookahead list. -/
theorem mergeRun_rest_sublist (l : List (ℚ × ℚ)) (ecur newend : ℚ) (w : Bool) :
    (mergeRun ecur newend l w).2.1.Sublist l := by
  induction l generalizing ecur newend w with
  | nil => simp [mergeRun]
  | cons p t ih =>
    obtain ⟨s1, e1⟩ := p
    by_cases h : s1 < ecur
    · simpa [mergeRun, h] using (ih _ _ true).trans (List.sublist_cons_self _ _)
    · simp [mergeRun, h]

/-- Each outer iteration consumes at least one input pair, so the
emitted count never exceeds the input count. -/
theorem fixAux_length (fuel : ℕ) : ∀ (l : List (ℚ × ℚ)) (w : Warn),
    (fixAux fuel l w).1.length ≤ l.length := by
  induction fuel with
  | zero => intro l w; simp [fixAux]
  | succ fuel ih =>
    intro l w
    simp only [fixAux]
    rcases hl2 : (dropInv (dropZero l w.w3).1 w.w1).1 with _ | ⟨⟨s0, e0⟩, t⟩
    · simp
    · have hsub : ((s0, e0) :: t).length ≤ l.length := by
        rw [← hl2]
        exact ((dropInv_fst_sublist _ _).trans (dropZero_fst_sublist _ _)).length_le
      have hm := (mergeRun_rest_sublist t e0 e0 w.w2).length_le
      have hr := ih (mergeRun e0 e0 t w.w2).2.1
        ⟨(shrinkStep (mergeRun e0 e0 t w.w2).1 (mergeRun e0 e0 t w.w2).2.1 w.w0).2,
         (dropInv (dropZero l w.w3).1 w.w1).2, (mergeRun e0 e0 t w.w2).2.2,
         (dropZero l w.w3).2⟩
      simp only [List.length_cons] at hsub ⊢
      omega

/-- Every emitted start is the start of some remaining input pair. -/
theorem fixAux_mem_fst (fuel : ℕ) : ∀ (l : List (ℚ × ℚ)) (w : Warn) (p : ℚ × ℚ),
    p ∈ (fixAux fuel l w).1 → p.1 ∈ l.map Prod.fst := by
  induction fuel with
  | zero => intro l w p h; simp [fixAux] at h
  | succ fuel ih =>
    intro l w p h
    simp only [fixAux] at h
    rcases hl2 : (dropInv (dropZero l w.w3).1 w.w1).1 with _ | ⟨⟨s0, e0⟩, t⟩ <;>
      rw [hl2] at h
    · simp at h
    · have hl2sub : ((s0, e0) :: t).Sublist l := by
        rw [← hl2]
        exact (dropInv_fst_sublist _ _).trans (dropZero_fst_sublist _ _)
      simp only [List.mem_cons] at h
      rcases h with h | h
      · subst h
        have hm0 : (s0, e0) ∈ l := hl2sub.subset (List.mem_cons_self _ _)
        simpa using List.mem_map_of_mem Prod.fst hm0
      · have h1 := ih _ _ _ h
        have hrest : (mergeRun e0 e0 t w.w2).2.1.Sublist l :=
          ((mergeRun_rest_sublist t e0 e0 w.w2).trans
            (List.sublist_cons_self (s0, e0) t)).trans hl2sub
        exact (hrest.map Prod.fst).subset h1

/-- Empty input: nothing to do and no flags raised. -/
theorem fixAux_nil (fuel : ℕ) (w : Warn) : fixAux fuel [] w = ([], w) := by
  cases fuel <;> rfl

/-- On an input that already satisfies the canonical invariant
(`start < end` in every pair and `end < next start` between adjacent
pairs), the normalizer is the identity and raises no flag. -/
theorem fixAux_canon (fuel : ℕ) : ∀ (l : List (ℚ × ℚ)) (w : Warn),
    l.length ≤ fuel → (∀ p ∈ l, p.1 < p.2) →
    l.Chain' (fun p q => p.2 < q.1) →
    fixAux fuel l w = (l, w) := by
  induction fuel with
  | zero =>
    intro l w hf _ _
    cases l with
    | nil => rfl
    | cons p t => simp at hf
  | succ fuel ih =>
    intro l w hf hlt hch
    cases l with
    | nil => exact fixAux_nil _ w
    | cons p t =>
      obtain ⟨s0, e0⟩ := p
      have h0 : s0 < e0 := hlt (s0, e0) (by simp)
      have hne : ¬ (e0 = s0) := fun h => absurd (h ▸ h0) (lt_irrefl s0)
      have hni : ¬ (e0 < s0) := asymm h0
      have hw : (⟨w.w0, w.w1, w.w2, w.w3⟩ : Warn) = w := rfl
      cases t with
      | nil =>
        simp [fixAux, dropZero, dropInv, mergeRun, shrinkStep, hne, hni, fixAux_nil,
          hw]
      | cons q t' =>
        obtain ⟨s1, e1⟩ := q
        have h01 : e0 < s1 := (List.chain'_cons.mp hch).1
        have hns : ¬ (s1 < e0) := asymm h01
        have hnee : ¬ (e0 = s1) := ne_of_lt h01
        have hlen2 : ((s1, e1) :: t').length ≤ fuel := by
          simp only [List.length_cons] at hf ⊢
          omega
        have hrec := ih ((s1, e1) :: t') w hlen2
          (fun r hr => hlt r (List.mem_cons_of_mem _ hr))
          (List.chain'_cons.mp hch).2
        simp [fixAux, dropZero, dropInv, mergeRun, shrinkStep, hne, hni, hns, hnee,
          hw, hrec]

/-! ## Structural lemmas about the dispatch layer -/

/-- When every operand is time-bearing, one index is collected per
operand. -/
theorem index_len_of_all_tsd (args : List (NpArg Arr C))
    (h : ∀ x ∈ args, x.isTsd = true) :
    (args.filterMap NpArg.index?).length = args.length := by
  induction args with
  | nil => rfl
  | cons a t ih =>
    cases a with
    | plain a => exact absurd (h _ (List.mem_cons_self _ _)) (by simp [NpArg.isTsd])
    | tsd x =>
      simp only [List.filterMap_cons, NpArg.index?, List.length_cons]
      rw [ih fun y hy => h y (List.mem_cons_of_mem _ hy)]

/-- Conversely, a full count of collected indexes means every operand
is time-bearing. -/
theorem all_tsd_of_index_len (args : List (NpArg Arr C))
    (h : (args.filterMap NpArg.index?).length = args.length) :
    ∀ x ∈ args, x.isTsd = true := by
  induction args with
  | nil => simp
  | cons a t ih =>
    cases a with
    | plain a =>
      exfalso
      simp only [List.filterMap_cons, NpArg.index?, List.length_cons] at h
      have := List.length_filterMap_le NpArg.index? t
      omega
    | tsd x =>
      intro y hy
      rcases List.mem_cons.mp hy with rfl | hy
      · rfl
      · simp only [List.filterMap_cons, NpArg.index?, List.length_cons] at h
        exact ih (Nat.succ_injective h) y hy

/-- Indexes and supports are collected from the same operands. -/
theorem support_len_eq_index_len (args : List (NpArg Arr C)) :
    (args.filterMap NpArg.support?).length = (args.filterMap NpArg.index?).length := by
  induction args with
  | nil => rfl
  | cons a t ih =>
    cases a <;>
      simp only [List.filterMap_cons, NpArg.support?, NpArg.index?, List.length_cons, ih]

/-- The non-growth branch never raises the ordering `RuntimeError`. -/
theorem concatSame_ne_orderError (P : ℕ) (tis : List (List ℚ))
    (tss : List (List (ℚ × ℚ))) (out : Arr) :
    concatSame (C := C) P tis tss out ≠ .orderError := by
  unfold concatSame
  rcases tis with _ | ⟨t0, tis⟩
  · simp
  rcases tss with _ | ⟨s0, tss⟩
  · rcases tis with _ | ⟨t1, tis⟩ <;> simp
  rcases tis with _ | ⟨t1, tis⟩
  · simp
  · rcases h1 : _check_time_equals (allclose1 (atolOf P)) (t0 :: t1 :: tis)
      with _ | te
    · simp [h1]
    · rcases h2 : _check_time_equals (allclose2 (atolOf P)) (s0 :: tss)
        with _ | se
      · simp [h1, h2]
      · cases te <;> cases se <;> simp [h1, h2]

/-- The growth-with-complete-metadata branch, resolved: the result is
determined by the strict-increase check on the joined index. -/
theorem concat_growth_spec (impl : List Arr → Arr) (lenOf : Arr → ℕ)
    (union : List (ℚ × ℚ) → List (ℚ × ℚ) → List (ℚ × ℚ)) (P : ℕ)
    (a : NpArg Arr C) (rest : List (NpArg Arr C))
    (hall : ∀ x ∈ a :: rest, x.isTsd = true)
    (hgrow : lenOf (impl ((a :: rest).map NpArg.toArr)) > lenOf a.toArr) :
    _concatenate_tsd impl lenOf union P (a :: rest) =
      if hasNonIncr ((a :: rest).filterMap NpArg.index?).flatten
      then .orderError
      else .container ((a :: rest).filterMap NpArg.index?).flatten
        (impl ((a :: rest).map NpArg.toArr))
        (foldUnion union ((a :: rest).filterMap NpArg.support?))
        ((a :: rest).filterMap NpArg.cols?).head? := by
  have hlen1 : ((a :: rest).filterMap NpArg.index?).length =
      ((a :: rest).map NpArg.toArr).length := by
    rw [List.length_map]
    exact index_len_of_all_tsd _ hall
  have hlen2 : ((a :: rest).filterMap NpArg.support?).length =
      ((a :: rest).map NpArg.toArr).length := by
    rw [support_len_eq_index_len]
    exact hlen1
  simp only [_concatenate_tsd, List.map_cons] at hgrow ⊢
  simp only [List.map_cons] at hlen1 hlen2
  rw [if_pos hgrow, if_pos ⟨hlen1, hlen2⟩]
  rfl

/-- The growth branch with incomplete metadata returns the raw output. -/
theorem concat_growth_raw (impl : List Arr → Arr) (lenOf : Arr → ℕ)
    (union : List (ℚ × ℚ) → List (ℚ × ℚ) → List (ℚ × ℚ)) (P : ℕ)
    (a : NpArg Arr C) (rest : List (NpArg Arr C))
    (hnall : ¬ ∀ x ∈ a :: rest, x.isTsd = true)
    (hgrow : lenOf (impl ((a :: rest).map NpArg.toArr)) > lenOf a.toArr) :
    _concatenate_tsd impl lenOf union P (a :: rest) =
      .raw (impl ((a :: rest).map NpArg.toArr)) := by
  have hcond : ¬ (((a :: rest).filterMap NpArg.index?).length =
      (NpArg.toArr a :: rest.map NpArg.toArr).length ∧
      ((a :: rest).filterMap NpArg.support?).length =
      (NpArg.toArr a :: rest.map NpArg.toArr).length) := by
    rintro ⟨h1, -⟩
    exact hnall (all_tsd_of_index_len _ (by simpa using h1))
  simp only [_concatenate_tsd, List.map_cons] at hgrow ⊢
  rw [if_pos hgrow, if_neg hcond]

/-! ## Lemmas for the split/concatenate round trip -/

/-- Concatenating `n` equal slices of width `k` restores the list. -/
theorem chunks_flatten {α : Type} (k : ℕ) : ∀ (n : ℕ) (l : List α),
    l.length = n * k →
    ((List.range n).map fun i => (l.drop (i * k)).take k).flatten = l := by
  intro n
  induction n with
  | zero =>
    intro l h
    simp only [Nat.zero_mul] at h
    rw [List.eq_nil_of_length_eq_zero h]
    rfl
  | succ n ih =>
    intro l h
    have hdd : ∀ i : ℕ, (l.drop k).drop (i * k) = l.drop ((i + 1) * k) := by
      intro i
      rw [List.drop_drop]
      congr 1
      ring
    rw [List.range_succ_eq_map, List.map_cons, List.map_map, List.flatten_cons]
    have hmap : List.map ((fun i => (l.drop (i * k)).take k) ∘ Nat.succ)
        (List.range n) =
        (List.range n).map fun i => ((l.drop k).drop (i * k)).take k := by
      apply List.map_congr_left
      intro i _
      simp only [Function.comp_apply, Nat.succ_eq_add_one, hdd i]
    have hlen : (l.drop k).length = n * k := by
      rw [List.length_drop, h, Nat.succ_mul]
      omega
    rw [hmap, ih (l.drop k) hlen]
    simp [List.take_append_drop]

/-- Rejoining `np.split` into `n` equal pieces restores the array when
concatenated, provided `n` divides the length. -/
theorem npSplit_flatten {α : Type} (n : ℕ) (l : List α) (h : n ∣ l.length) :
    (npSplit n l).flatten = l := by
  unfold npSplit
  exact chunks_flatten (l.length / n) n l (Nat.mul_div_cancel' h).symm

/-- Splitting via `np.split` into `n` sections yields `n` pieces. -/
theorem npSplit_length {α : Type} (n : ℕ) (l : List α) :
    (npSplit n l).length = n := by
  simp [npSplit]

/-- The first of the equal sections is the leading slice. -/
theorem npSplit_succ {α : Type} (m : ℕ) (l : List α) :
    npSplit (m + 1) l = l.take (l.length / (m + 1)) ::
      ((List.range m).map fun i =>
        (l.drop ((i + 1) * (l.length / (m + 1)))).take (l.length / (m + 1))) := by
  rw [npSplit, List.range_succ_eq_map, List.map_cons, List.map_map]
  simp [Function.comp_def, Nat.succ_eq_add_one]

/-- Collected indexes of an all-container operand list. -/
theorem filterMap_tsd_index (l : List (TsdArg Arr C)) :
    (l.map NpArg.tsd).filterMap NpArg.index? = l.map TsdArg.index := by
  induction l with
  | nil => rfl
  | cons x t ih => simp [List.filterMap_cons, NpArg.index?, ih]

/-- Collected supports of an all-container operand list. -/
theorem filterMap_tsd_support (l : List (TsdArg Arr C)) :
    (l.map NpArg.tsd).filterMap NpArg.support? = l.map TsdArg.time_support := by
  induction l with
  | nil => rfl
  | cons x t ih => simp [List.filterMap_cons, NpArg.support?, ih]

/-- Collected columns of an all-container operand list. -/
theorem filterMap_tsd_cols (l : List (TsdArg Arr C)) :
    (l.map NpArg.tsd).filterMap NpArg.cols? = l.filterMap TsdArg.cols := by
  induction l with
  | nil => rfl
  | cons x t ih =>
    cases hx : x.cols <;> simp [List.filterMap_cons, NpArg.cols?, hx, ih]

/-- Contributed arrays of an all-container operand list. -/
theorem map_tsd_toArr (l : List (TsdArg Arr C)) :
    (l.map NpArg.tsd).map NpArg.toArr = l.map TsdArg.values := by
  induction l with
  | nil => rfl
  | cons x t ih => simp [NpArg.toArr, ih]

/-- Column labels that are all absent collect to nothing. -/
theorem filterMap_cols_nil (l : List (TsdArg Arr C))
    (hc : ∀ x ∈ l, x.cols = none) : l.filterMap TsdArg.cols = [] := by
  induction l with
  | nil => rfl
  | cons x t ih =>
    simp [List.filterMap_cons, hc x (List.mem_cons_self _ _),
      ih fun y hy => hc y (List.mem_cons_of_mem _ hy)]

/-- The first collected column label of a nonempty list of containers
sharing the same (possibly absent) labels. -/
theorem head?_filterMap_cols (l : List (TsdArg Arr C)) (c : Option C)
    (hne : l ≠ []) (hc : ∀ x ∈ l, x.cols = c) :
    (l.filterMap TsdArg.cols).head? = c := by
  cases c with
  | some c0 =>
    cases l with
    | nil => exact absurd rfl hne
    | cons x t => simp [List.filterMap_cons, hc x (List.mem_cons_self _ _)]
  | none => simp [filterMap_cols_nil l hc]

/-! ## Claim theorems -/

/-- C1 (code bug): the normalizer does NOT establish the strict
ordering invariant.  On the sorted-start input `start=[0,1,2],
end=[5,2,3]` it emits the intervals `(0,5), (2,3)` — the adjacent pair
violates `end[i] < start[i+1]` (indeed `¬ 5 < 2`), because the merge
loop compares the next start against the raw `end[i]` instead of the
accumulated merged end, contradicting both the spec's ordering
invariant and the source's own "Some starts precede the previous end.
Joining them!" flag (which it raises here while leaving the overlap in
place). -/
theorem C1_invariant_violated :
    _jitfix_iset [0, 1, 2] [5, 2, 3] =
      ([(0, 5), (2, 3)], ⟨false, false, true, false⟩) ∧ ¬ ((5 : ℚ) < 2) := by
  decide

/-- C4 (amended), both halves: the claim's concrete example
`start=[0,1,5], end=[2,3,6]` yields exactly `(0,3), (5,6)` with only
the overlap flag raised; but the merged end is `max(end[j-1], end[j])`
of the LAST TWO raw ends of the run, not the maximum of all ends in
the run: for `start=[0,1,2], end=[10,3,4]` (one single merged run) the
emitted interval is `(0,4)`, not `(0,10)`. -/
theorem C4_merge_rule :
    _jitfix_iset [0, 1, 5] [2, 3, 6] =
      ([(0, 3), (5, 6)], ⟨false, false, true, false⟩) ∧
    _jitfix_iset [0, 1, 2] [10, 3, 4] =
      ([(0, 4)], ⟨false, false, true, false⟩) := by
  decide

/-- C4 counterexample: on `start=[0,1,2], end=[10,3,4]`, all three
input intervals are merged into a single run whose maximal end is 10,
yet the emitted interval is `(0,4)` — the claim's "end is the maximum
of the ends of all intervals in the merged run" forces `(0,10)`. -/
theorem C4_counterexample :
    (_jitfix_iset [0, 1, 2] [10, 3, 4]).1 = [((0 : ℚ), (4 : ℚ))] ∧
    (_jitfix_iset [0, 1, 2] [10, 3, 4]).1 ≠ [((0 : ℚ), (10 : ℚ))] := by
  decide

/-- C5 counterexample: the normalizer is not idempotent.  For
`start=[0,1,3], end=[5,2,4]` the first pass returns `(0,5), (3,4)`
(still overlapping, see C1); running the normalizer on the start and
end columns of that output merges further and raises the overlap flag
again, so the second pass is not the identity with an all-false
report. -/
theorem C5_counterexample :
    _jitfix_iset ((_jitfix_iset [0, 1, 3] [5, 2, 4]).1.map Prod.fst)
        ((_jitfix_iset [0, 1, 3] [5, 2, 4]).1.map Prod.snd) ≠
      ((_jitfix_iset [0, 1, 3] [5, 2, 4]).1, ⟨false, false, false, false⟩) := by
  decide

/-- C5 (amended): the normalizer is the identity with an all-false
anomaly report on every input that already satisfies the canonical
invariant (`start < end` within each interval, `end < next start`
between adjacent intervals); hence re-running it on its own output is
the identity exactly when that output is canonical — which, by the C1
bug, a first pass does not always establish. -/
theorem C5_canonical_fixpoint (l : List (ℚ × ℚ))
    (h1 : ∀ p ∈ l, p.1 < p.2)
    (h2 : l.Chain' fun p q => p.2 < q.1) :
    _jitfix_iset (l.map Prod.fst) (l.map Prod.snd) =
      (l, ⟨false, false, false, false⟩) := by
  unfold _jitfix_iset
  rw [List.zip_map']
  have hz : l.map (fun a => (a.1, a.2)) = l := by simp
  rw [hz, List.length_map]
  exact fixAux_canon l.length l _ le_rfl h1 h2

/-- Witness for C5: a canonical two-interval input is returned
unchanged with no flags. -/
theorem C5_witness :
    ((∀ p ∈ [((0 : ℚ), (1 : ℚ)), (2, 3)], p.1 < p.2) ∧
      List.Chain' (fun p q : ℚ × ℚ => p.2 < q.1) [((0 : ℚ), (1 : ℚ)), (2, 3)]) ∧
    _jitfix_iset ([((0 : ℚ), (1 : ℚ)), (2, 3)].map Prod.fst)
        ([((0 : ℚ), (1 : ℚ)), (2, 3)].map Prod.snd) =
      ([((0 : ℚ), (1 : ℚ)), (2, 3)], ⟨false, false, false, false⟩) :=
  ⟨⟨by decide, by norm_num [List.chain'_cons]⟩,
    C5_canonical_fixpoint _ (by decide) (by norm_num [List.chain'_cons])⟩

/-- C6 counterexample: the boundary shrink CAN apply to the last
emitted interval.  On `start=[0,2,5], end=[2,1,4]` the first interval
is shrunk (its merged end 2 equals the next input start 2), and both
following intervals are then dropped as inverted, so the single — and
therefore last — emitted interval has the shrunk end `2 - 10⁻⁶`, which
is not any raw input end. -/
theorem C6_counterexample :
    _jitfix_iset [0, 2, 5] [2, 1, 4] =
      ([(0, 2 - 1/1000000)], ⟨true, true, false, false⟩) ∧
    ((2 : ℚ) - 1/1000000) ∉ [(2 : ℚ), 1, 4] := by
  constructor
  · norm_num [_jitfix_iset, fixAux, dropZero, dropInv, mergeRun, shrinkStep]
  · norm_num

/-- C6 (amended): after merging, if the tracked end equals the NEXT
INPUT interval's start, the end is decreased by the fixed epsilon
`10⁻⁶` and the adjacent-equal-boundary flag is raised (first half: the
claim's own example shape `start=[s0,e0], end=[e0,e1]`); and the shrink
never applies when the cursor sits on the last input position — after a
tail merge there is no next interval to compare against, so the merged
end is emitted unshrunk (second half).  The shrunk interval can still
end up last in the OUTPUT when the later input intervals are all
dropped (see the counterexample). -/
theorem C6_shrink_rules :
    (∀ s0 e0 e1 : ℚ, s0 < e0 → e0 < e1 →
      _jitfix_iset [s0, e0] [e0, e1] =
        ([(s0, e0 - 1/1000000), (e0, e1)], ⟨true, false, false, false⟩)) ∧
    (∀ s0 e0 s1 e1 : ℚ, s0 < e0 → s1 < e0 →
      _jitfix_iset [s0, s1] [e0, e1] =
        ([(s0, max e0 e1)], ⟨false, false, true, false⟩)) := by
  constructor
  · intro s0 e0 e1 h0 h1
    have hne : ¬ (e0 = s0) := ne_of_gt h0
    have hni : ¬ (e0 < s0) := asymm h0
    have hne1 : ¬ (e1 = e0) := ne_of_gt h1
    have hni1 : ¬ (e1 < e0) := asymm h1
    simp [_jitfix_iset, fixAux, dropZero, dropInv, mergeRun, shrinkStep,
      hne, hni, hne1, hni1, lt_irrefl]
  · intro s0 e0 s1 e1 h0 h1
    have hne : ¬ (e0 = s0) := ne_of_gt h0
    have hni : ¬ (e0 < s0) := asymm h0
    simp [_jitfix_iset, fixAux, dropZero, dropInv, mergeRun, shrinkStep,
      hne, hni, h1]

/-- Witness for C6: at `start=[0,2], end=[2,4]` the shrink half gives
exactly the claim's example `(0, 2-ε), (2,4)` with only the
adjacent-equal-boundary flag. -/
theorem C6_witness :
    ((0 : ℚ) < 2 ∧ (2 : ℚ) < 4) ∧
    _jitfix_iset [0, 2] [2, 4] =
      ([(0, 2 - 1/1000000), (2, 4)], ⟨true, false, false, false⟩) :=
  ⟨⟨by decide, by decide⟩, C6_shrink_rules.1 0 2 4 (by decide) (by decide)⟩

/-- C9: the emitted interval count never exceeds the input length `m`
(so every write into the pre-allocated `(m, 2)` buffer is in bounds
and the final slice `data[0:ct]` only truncates), and the empty input
yields the empty interval set with an all-false anomaly report. -/
theorem C9_output_bounds :
    (∀ start end' : List ℚ,
      ((_jitfix_iset start end').1).length ≤ start.length) ∧
    _jitfix_iset [] [] = ([], ⟨false, false, false, false⟩) := by
  constructor
  · intro s e
    refine le_trans (fixAux_length s.length (s.zip e) _) ?_
    rw [List.length_zip]
    exact min_le_left _ _
  · rfl

/-- C10: normalization never invents a start boundary — every emitted
interval's start is one of the input start values.  (The input columns
themselves are never mutated: the embedding is a pure function of
them.) -/
theorem C10_starts_preserved (start end' : List ℚ) (p : ℚ × ℚ)
    (h : p ∈ (_jitfix_iset start end').1) : p.1 ∈ start := by
  have h2 := fixAux_mem_fst start.length (start.zip end')
    ⟨false, false, false, false⟩ p h
  rcases List.mem_map.mp h2 with ⟨q, hq, hq1⟩
  exact hq1 ▸ (List.of_mem_zip hq).1

/-- Witness for C10: the emitted interval `(0, 1)` of
`start=[0,2], end=[1,3]` has its start among the input starts. -/
theorem C10_witness :
    ((0 : ℚ), (1 : ℚ)) ∈ (_jitfix_iset [0, 2] [1, 3]).1 ∧ (0 : ℚ) ∈ [(0 : ℚ), 2] :=
  ⟨by decide, C10_starts_preserved [0, 2] [1, 3] (0, 1) (by decide)⟩

/-- C2: in a concatenation that grows the leading axis
(`output.shape[0] > arrays[0].shape[0]`) with every operand
time-bearing, the dispatch raises its fatal `RuntimeError` if and only
if some adjacent pair of the joined (hstacked, operand-order) time
index is non-increasing; when it does not raise, it returns a
container whose index is the joined index and whose support is the
left-fold union of the operand supports.  And this is the only fatal
error the dispatch raises: whenever the result is `orderError`, the
call was such a growth-case all-metadata concatenation with a
non-increasing adjacent pair in the joined index. -/
theorem C2_growth_order_check :
    (∀ (Arr C : Type) (impl : List Arr → Arr) (lenOf : Arr → ℕ)
        (union : List (ℚ × ℚ) → List (ℚ × ℚ) → List (ℚ × ℚ)) (P : ℕ)
        (a : NpArg Arr C) (rest : List (NpArg Arr C)),
      (∀ x ∈ a :: rest, x.isTsd = true) →
      lenOf (impl ((a :: rest).map NpArg.toArr)) > lenOf a.toArr →
      ((_concatenate_tsd impl lenOf union P (a :: rest) = .orderError ↔
        hasNonIncr ((a :: rest).filterMap NpArg.index?).flatten = true) ∧
       (hasNonIncr ((a :: rest).filterMap NpArg.index?).flatten = false →
        _concatenate_tsd impl lenOf union P (a :: rest) =
          .container ((a :: rest).filterMap NpArg.index?).flatten
            (impl ((a :: rest).map NpArg.toArr))
            (foldUnion union ((a :: rest).filterMap NpArg.support?))
            ((a :: rest).filterMap NpArg.cols?).head?))) ∧
    (∀ (Arr C : Type) (impl : List Arr → Arr) (lenOf : Arr → ℕ)
        (union : List (ℚ × ℚ) → List (ℚ × ℚ) → List (ℚ × ℚ)) (P : ℕ)
        (args : List (NpArg Arr C)),
      _concatenate_tsd impl lenOf union P args = .orderError →
      (∀ x ∈ args, x.isTsd = true) ∧
      (∃ a rest, args = a :: rest ∧
        lenOf (impl (args.map NpArg.toArr)) > lenOf a.toArr) ∧
      hasNonIncr (args.filterMap NpArg.index?).flatten = true) := by
  constructor
  · intro Arr C impl lenOf union P a rest hall hgrow
    rw [concat_growth_spec impl lenOf union P a rest hall hgrow]
    cases hni : hasNonIncr ((a :: rest).filterMap NpArg.index?).flatten <;>
      simp [hni]
  · intro Arr C impl lenOf union P args h
    cases args with
    | nil => simp [_concatenate_tsd] at h
    | cons a rest =>
      by_cases hgrow : lenOf (impl ((a :: rest).map NpArg.toArr)) > lenOf a.toArr
      · by_cases hall : ∀ x ∈ a :: rest, x.isTsd = true
        · rw [concat_growth_spec impl lenOf union P a rest hall hgrow] at h
          by_cases hni :
              hasNonIncr ((a :: rest).filterMap NpArg.index?).flatten = true
          · exact ⟨hall, ⟨a, rest, rfl, hgrow⟩, hni⟩
          · rw [if_neg hni] at h
            simp at h
        · rw [concat_growth_raw impl lenOf union P a rest hall hgrow] at h
          simp at h
      · have hsame : _concatenate_tsd impl lenOf union P (a :: rest) =
            concatSame P ((a :: rest).filterMap NpArg.index?)
              ((a :: rest).filterMap NpArg.support?)
              (impl ((a :: rest).map NpArg.toArr)) := by
          simp only [_concatenate_tsd, List.map_cons] at hgrow ⊢
          rw [if_neg hgrow]
        rw [hsame] at h
        exact absurd h (concatSame_ne_orderError _ _ _ _)

/-- Witness for C2: two time-bearing operands with indexes `[0,1]` and
`[2,3]` concatenated along the leading axis produce the container with
the joined index `[0,1,2,3]` and the unioned support. -/
theorem C2_witness :
    ((∀ x ∈ [tsdRowsA, tsdRowsB], x.isTsd = true) ∧
      List.length (catAxis0 ([tsdRowsA, tsdRowsB].map NpArg.toArr)) >
        List.length tsdRowsA.toArr ∧
      hasNonIncr ([tsdRowsA, tsdRowsB].filterMap NpArg.index?).flatten = false) ∧
    _concatenate_tsd catAxis0 List.length isetUnion 9 [tsdRowsA, tsdRowsB] =
      .container [0, 1, 2, 3] [10, 20, 30, 40] [(0, 1), (2, 3)] none :=
  ⟨⟨by decide, by decide, by decide⟩,
    (C2_growth_order_check.1 (List ℚ) ℕ catAxis0 List.length isetUnion 9
      tsdRowsA [tsdRowsB] (by decide) (by decide)).2 (by decide)⟩

/-- C3 (amended): in a concatenation that does not grow the leading
axis, with two or more time-bearing operands, WHEN both pairwise
comparison passes evaluate without a broadcast error (the compared
indexes, and likewise supports, have broadcast-compatible shapes), the
result stays a container (carrying the first collected index and
support) if and only if all collected indexes are pairwise close AND
all collected supports are pairwise close (`rtol=0`, `atol=10^-P`);
otherwise the plain output is returned with a warning whose message
distinguishes the three sub-cases (both mismatched / indexes only /
supports only).  When either `np.allclose` call hits
broadcast-incompatible shapes, the operation instead dies with an
uncaught `ValueError` — no warning, no plain-array return (see the
counterexample). -/
theorem C3_other_axis_checks :
    ∀ (Arr C : Type) (impl : List Arr → Arr) (lenOf : Arr → ℕ)
      (union : List (ℚ × ℚ) → List (ℚ × ℚ) → List (ℚ × ℚ)) (P : ℕ)
      (a : NpArg Arr C) (rest : List (NpArg Arr C))
      (t0 t1 : List ℚ) (tr : List (List ℚ))
      (s0 : List (ℚ × ℚ)) (sr : List (List (ℚ × ℚ))),
      (a :: rest).filterMap NpArg.index? = t0 :: t1 :: tr →
      (a :: rest).filterMap NpArg.support? = s0 :: sr →
      ¬ lenOf (impl ((a :: rest).map NpArg.toArr)) > lenOf a.toArr →
      ((_check_time_equals (allclose1 (atolOf P)) (t0 :: t1 :: tr) = none →
        _concatenate_tsd impl lenOf union P (a :: rest) = .pyError) ∧
       (∀ te : Bool,
        _check_time_equals (allclose1 (atolOf P)) (t0 :: t1 :: tr) = some te →
        _check_time_equals (allclose2 (atolOf P)) (s0 :: sr) = none →
        _concatenate_tsd impl lenOf union P (a :: rest) = .pyError) ∧
       (∀ te se : Bool,
        _check_time_equals (allclose1 (atolOf P)) (t0 :: t1 :: tr) = some te →
        _check_time_equals (allclose2 (atolOf P)) (s0 :: sr) = some se →
        ((_concatenate_tsd impl lenOf union P (a :: rest) =
            .container t0 (impl ((a :: rest).map NpArg.toArr)) s0 none ↔
          (te = true ∧ se = true)) ∧
         (te = false → se = false →
          _concatenate_tsd impl lenOf union P (a :: rest) =
            .warnRaw .bothNotEqual (impl ((a :: rest).map NpArg.toArr))) ∧
         (te = false → se = true →
          _concatenate_tsd impl lenOf union P (a :: rest) =
            .warnRaw .indexNotEqual (impl ((a :: rest).map NpArg.toArr))) ∧
         (te = true → se = false →
          _concatenate_tsd impl lenOf union P (a :: rest) =
            .warnRaw .supportNotEqual (impl ((a :: rest).map NpArg.toArr)))))) := by
  intro Arr C impl lenOf union P a rest t0 t1 tr s0 sr hti hts hgrow
  have hsame : _concatenate_tsd impl lenOf union P (a :: rest) =
      concatSame P (t0 :: t1 :: tr) (s0 :: sr)
        (impl ((a :: rest).map NpArg.toArr)) := by
    simp only [_concatenate_tsd, List.map_cons] at hgrow ⊢
    rw [if_neg hgrow, hti, hts]
  rw [hsame]
  unfold concatSame
  refine ⟨fun h1 => by simp [h1], fun te h1 h2 => by simp [h1, h2],
    fun te se h1 h2 => ?_⟩
  cases te <;> cases se <;> simp [h1, h2]

/-- C3 counterexample: two operands sharing the index `[0,1]` but
carrying supports of two and three intervals, concatenated along the
secondary axis.  The supports are not pairwise close, so the claim
demands a plain array plus the supports-mismatch warning; instead
`np.allclose` on the broadcast-incompatible `(2,2)` and `(3,2)` values
raises, and the whole call dies with an uncaught `ValueError`. -/
theorem C3_counterexample :
    _concatenate_tsd catAxis1 List.length isetUnion 9 [tsdColS2, tsdColS3] =
      .pyError ∧
    ((NpResult.pyError : NpResult (List (List ℚ)) ℕ) ≠
      NpResult.warnRaw .supportNotEqual
        (catAxis1 ([tsdColS2, tsdColS3].map NpArg.toArr))) ∧
    ((NpResult.pyError : NpResult (List (List ℚ)) ℕ) ≠
      NpResult.container [0, 1]
        (catAxis1 ([tsdColS2, tsdColS3].map NpArg.toArr))
        [((0 : ℚ), (1 : ℚ)), (2, 3)] none) := by
  refine ⟨?_, by decide, by decide⟩
  norm_num [_concatenate_tsd, concatSame, _check_time_equals, npAllRow,
    allclose1, allclose2, rowsClose, rowsClose2, atolOf, tsdColS2, tsdColS3,
    catAxis1, NpArg.toArr, NpArg.index?, NpArg.support?, NpArg.cols?,
    List.filterMap_cons]

/-- Witness for C3: two one-column operands sharing index `[0,1]` and
support `[(0,1)]`, concatenated along the secondary axis, stay a
container with that index and support. -/
theorem C3_witness :
    (([tsdColA, tsdColB].filterMap NpArg.index? = [[0, 1], [0, 1]] ∧
      [tsdColA, tsdColB].filterMap NpArg.support? = [[(0, 1)], [(0, 1)]] ∧
      ¬ List.length (catAxis1 ([tsdColA, tsdColB].map NpArg.toArr)) >
        List.length tsdColA.toArr) ∧
      (_check_time_equals (allclose1 (atolOf 9)) [[0, 1], [0, 1]] = some true ∧
        _check_time_equals (allclose2 (atolOf 9)) [[((0 : ℚ), (1 : ℚ))], [(0, 1)]] =
          some true)) ∧
    _concatenate_tsd catAxis1 List.length isetUnion 9 [tsdColA, tsdColB] =
      .container [0, 1] [[1, 5], [2, 6]] [(0, 1)] none :=
  ⟨⟨⟨by decide, by decide, by decide⟩,
      ⟨by norm_num [_check_time_equals, npAllRow, allclose1, rowsClose, atolOf],
        by norm_num [_check_time_equals, npAllRow, allclose2, rowsClose2,
          atolOf]⟩⟩,
    ((C3_other_axis_checks (List (List ℚ)) ℕ catAxis1 List.length isetUnion 9
        tsdColA [tsdColB] [0, 1] [0, 1] [] [(0, 1)] [[(0, 1)]]
        (by decide) (by decide) (by decide)).2.2 true true
      (by norm_num [_check_time_equals, npAllRow, allclose1, rowsClose, atolOf])
      (by norm_num [_check_time_equals, npAllRow, allclose2, rowsClose2,
        atolOf])).1.mpr ⟨rfl, rfl⟩⟩

/-- C7 (amended): in the leading-axis-growth case, if not every
operand exposes the complete time metadata, the raw numeric result is
returned unchanged.  (The claim's "for every axis and growth
direction" fails in the non-growth case — see the counterexample.) -/
theorem C7_growth_incomplete_metadata_raw :
    ∀ (Arr C : Type) (impl : List Arr → Arr) (lenOf : Arr → ℕ)
      (union : List (ℚ × ℚ) → List (ℚ × ℚ) → List (ℚ × ℚ)) (P : ℕ)
      (a : NpArg Arr C) (rest : List (NpArg Arr C)),
      ¬ (∀ x ∈ a :: rest, x.isTsd = true) →
      lenOf (impl ((a :: rest).map NpArg.toArr)) > lenOf a.toArr →
      _concatenate_tsd impl lenOf union P (a :: rest) =
        .raw (impl ((a :: rest).map NpArg.toArr)) :=
  fun _ _ impl lenOf union P a rest hnall hgrow =>
    concat_growth_raw impl lenOf union P a rest hnall hgrow

/-- C7 counterexample: in the NON-growth case with exactly one
time-bearing operand and one plain operand, the dispatch does NOT
return the raw numeric result — it wraps it in a container carrying
the single collected index and support. -/
theorem C7_counterexample :
    _concatenate_tsd catAxis1 List.length isetUnion 9 [tsdColA, plainCol] =
      .container [0, 1] [[1, 5], [2, 6]] [(0, 1)] none ∧
    (NpResult.container [0, 1] [[1, 5], [2, 6]] [(0, 1)] (none : Option ℕ) ≠
      .raw (catAxis1 ([tsdColA, plainCol].map NpArg.toArr))) := by
  decide

/-- Witness for C7: a growth-direction concatenation of one
time-bearing and one plain operand returns the raw result. -/
theorem C7_witness :
    ((¬ ∀ x ∈ [tsdRowsA, plainRows], x.isTsd = true) ∧
      List.length (catAxis0 ([tsdRowsA, plainRows].map NpArg.toArr)) >
        List.length tsdRowsA.toArr) ∧
    _concatenate_tsd catAxis0 List.length isetUnion 9 [tsdRowsA, plainRows] =
      .raw (catAxis0 ([tsdRowsA, plainRows].map NpArg.toArr)) :=
  ⟨⟨by decide, by decide⟩,
    C7_growth_incomplete_metadata_raw (List ℚ) ℕ catAxis0 List.length isetUnion 9
      tsdRowsA [plainRows] (by decide) (by decide)⟩

/-- C8 (amended, spec-modelled): splitting a time-bearing container at
axis 0 into `n` equal pieces and re-joining them along the index axis
reproduces the original value array and time index EXACTLY, inside a
container; but the resulting time support is the left-fold union of
the pieces' constructor-default supports (one `[first, last]` interval
per piece), not the original support `S` — which the result does not
depend on at all. -/
theorem C8_split_concat_roundtrip :
    ∀ (V C : Type) (union : List (ℚ × ℚ) → List (ℚ × ℚ) → List (ℚ × ℚ)) (P : ℕ)
      (t : List ℚ) (d : List V) (S : List (ℚ × ℚ)) (cols : Option C) (n : ℕ),
      2 ≤ n → n ∣ t.length → 0 < t.length → d.length = t.length →
      hasNonIncr t = false →
      _concatenate_tsd catAxis0 List.length union P
          ((_split_tsd ⟨d, t, S, cols⟩ n).map NpArg.tsd) =
        .container t d (foldUnion union ((npSplit n t).map defaultSupport)) cols := by
  intro V C union P t d S cols n hn hdvd hpos hlen hinc
  obtain ⟨m, rfl⟩ : ∃ m, n = m + 1 := ⟨n - 1, by omega⟩
  set k := t.length / (m + 1) with hk
  have hmul : (m + 1) * k = t.length := Nat.mul_div_cancel' hdvd
  have hkpos : 0 < k := by
    rcases Nat.eq_zero_or_pos k with h0 | h
    · rw [h0, Nat.mul_zero] at hmul; omega
    · exact h
  set pieces := _split_tsd (⟨d, t, S, cols⟩ : TsdArg (List V) C) (m + 1)
    with hpieces
  have hzlen1 : (npSplit (m + 1) t).length = m + 1 := npSplit_length _ t
  have hzlen2 : (npSplit (m + 1) d).length = m + 1 := npSplit_length _ d
  have hmapidx : pieces.map TsdArg.index = npSplit (m + 1) t := by
    simp only [hpieces, _split_tsd, mkTsd, List.map_map]
    exact List.map_fst_zip _ _ (by rw [hzlen1, hzlen2])
  have hmapval : pieces.map TsdArg.values = npSplit (m + 1) d := by
    simp only [hpieces, _split_tsd, mkTsd, List.map_map]
    exact List.map_snd_zip _ _ (by rw [hzlen1, hzlen2])
  have hmapsup : pieces.map TsdArg.time_support =
      (npSplit (m + 1) t).map defaultSupport := by
    rw [← hmapidx]
    simp only [hpieces, _split_tsd, mkTsd, List.map_map]
    rfl
  have hcolsmem : ∀ x ∈ pieces, x.cols = cols := by
    intro x hx
    simp only [hpieces, _split_tsd, List.mem_map] at hx
    obtain ⟨p, -, rfl⟩ := hx
    rfl
  have hplen : pieces.length = m + 1 := by
    simp only [hpieces, _split_tsd, List.length_map, List.length_zip, hzlen1,
      hzlen2, Nat.min_self]
  have hpne : pieces ≠ [] := by
    intro h0
    rw [h0] at hplen
    simp at hplen
  have hti : (pieces.map NpArg.tsd).filterMap NpArg.index? = npSplit (m + 1) t := by
    rw [filterMap_tsd_index, hmapidx]
  have hts : (pieces.map NpArg.tsd).filterMap NpArg.support? =
      (npSplit (m + 1) t).map defaultSupport := by
    rw [filterMap_tsd_support, hmapsup]
  have harr : (pieces.map NpArg.tsd).map NpArg.toArr = npSplit (m + 1) d := by
    rw [map_tsd_toArr, hmapval]
  have hjoin : ((pieces.map NpArg.tsd).filterMap NpArg.index?).flatten = t := by
    rw [hti]
    exact npSplit_flatten _ t hdvd
  have hcolshead : ((pieces.map NpArg.tsd).filterMap NpArg.cols?).head? = cols := by
    rw [filterMap_tsd_cols]
    exact head?_filterMap_cols pieces cols hpne hcolsmem
  have hall : ∀ x ∈ pieces.map NpArg.tsd, NpArg.isTsd x = true := by
    intro x hx
    obtain ⟨y, -, rfl⟩ := List.mem_map.mp hx
    rfl
  cases hq : pieces.map NpArg.tsd with
  | nil =>
    exfalso
    have := congrArg List.length hq
    rw [List.length_map, hplen] at this
    simp at this
  | cons a rest =>
    rw [hq] at hti hts harr hjoin hcolshead hall
    have hheadArr : a.toArr = d.take k := by
      have h1 : ((a :: rest).map NpArg.toArr).head? = some a.toArr := by simp
      rw [harr, npSplit_succ] at h1
      have hkd : d.length / (m + 1) = k := by rw [hlen]
      rw [hkd] at h1
      simpa using h1.symm
    have hgrow : List.length (catAxis0 ((a :: rest).map NpArg.toArr)) >
        List.length a.toArr := by
      rw [harr]
      have hflat : (npSplit (m + 1) d).flatten = d :=
        npSplit_flatten _ d (by rw [hlen]; exact hdvd)
      rw [show catAxis0 (npSplit (m + 1) d) = (npSplit (m + 1) d).flatten from rfl,
        hflat, hheadArr, List.length_take]
      have hklt : k < d.length := by
        rw [hlen, ← hmul]
        calc k = 1 * k := (Nat.one_mul k).symm
        _ < (m + 1) * k := by
          apply Nat.mul_lt_mul_of_lt_of_le _ (Nat.le_refl k) hkpos
          omega
      omega
    rw [concat_growth_spec catAxis0 List.length union P a rest hall hgrow,
      hjoin, hinc]
    simp only [Bool.false_eq_true, if_false]
    rw [hts, hcolshead]
    congr 1
    have hflat : (npSplit (m + 1) d).flatten = d :=
      npSplit_flatten _ d (by rw [hlen]; exact hdvd)
    rw [show catAxis0 ((a :: rest).map NpArg.toArr) =
      ((a :: rest).map NpArg.toArr).flatten from rfl, harr, hflat]

/-- Witness for C8: a six-sample container split into three equal
pieces and re-joined along the index axis: the values and the index
come back exactly; the support becomes the three-piece union. -/
theorem C8_witness :
    ((2 ≤ 3 ∧ (3 ∣ ([(0 : ℚ), 1, 2, 3, 4, 5]).length) ∧
      0 < ([(0 : ℚ), 1, 2, 3, 4, 5]).length ∧
      ([(10 : ℚ), 20, 30, 40, 50, 60]).length =
        ([(0 : ℚ), 1, 2, 3, 4, 5]).length ∧
      hasNonIncr [0, 1, 2, 3, 4, 5] = false) ∧
    _concatenate_tsd catAxis0 List.length isetUnion 9
        ((_split_tsd (⟨[10, 20, 30, 40, 50, 60], [0, 1, 2, 3, 4, 5], [(0, 5)],
          (none : Option ℕ)⟩ : TsdArg (List ℚ) ℕ) 3).map NpArg.tsd) =
      .container [0, 1, 2, 3, 4, 5] [10, 20, 30, 40, 50, 60]
        [(0, 1), (2, 3), (4, 5)] none) :=
  ⟨⟨by decide, by decide, by decide, by decide, by decide⟩,
    C8_split_concat_roundtrip ℚ ℕ isetUnion 9 [0, 1, 2, 3, 4, 5]
      [10, 20, 30, 40, 50, 60] [(0, 5)] none 3 (by decide) (by decide)
      (by decide) (by decide) (by decide)⟩

/-- C8 counterexample: the round trip does NOT reproduce the original
time support.  A container with support `[(0, 3)]` split into two
pieces and re-joined comes back with support `[(0, 1), (2, 3)]` — the
union of the pieces' default supports — which is not the original. -/
theorem C8_counterexample :
    _concatenate_tsd catAxis0 List.length isetUnion 9
        ((_split_tsd (⟨[10, 20, 30, 40], [0, 1, 2, 3], [(0, 3)],
          (none : Option ℕ)⟩ : TsdArg (List ℚ) ℕ) 2).map NpArg.tsd) =
      .container [0, 1, 2, 3] [10, 20, 30, 40] [(0, 1), (2, 3)] none ∧
    ([((0 : ℚ), (1 : ℚ)), (2, 3)] ≠ [((0 : ℚ), (3 : ℚ))]) := by
  decide

end Pynapple
